import Mathlib

/-!
Verification of the piggyback statistics collector
(src/backend/executor/execProcnode.c and src/backend/piggyback/piggyback.c).

The development shallowly embeds the piggyback-specific code paths:
the predicate analyzer LookForFilterWithEquality, the per-tuple
accumulation block inside ExecProcNode, the pairwise co-occurrence
builders buildTwoColumnCombinations / addToTwoColumnCombinationHashSet,
the reporter printDistinctValues, and the finalize step of ExecEndNode.
C ints are modeled as Lean Int with explicit 32-bit truncation where the
code casts, hash sets as Finset, and the global Piggyback struct as an
explicit state record.
-/

namespace Piggyback

/-! ## Type OIDs and C integer limits -/

/-- pg_type OID for 8-byte integers. -/
def INT8OID : Nat := 20

/-- pg_type OID for 2-byte integers. -/
def INT2OID : Nat := 21

/-- pg_type OID for int2 vectors. -/
def INT2VECTOROID : Nat := 22

/-- pg_type OID for 4-byte integers. -/
def INT4OID : Nat := 23

/-- pg_type OID for arbitrary-precision decimals. -/
def NUMERICOID : Nat := 1700

/-- pg_type OID for blank-padded character data. -/
def BPCHAROID : Nat := 1042

/-- pg_type OID for variable-length character data. -/
def VARCHAROID : Nat := 1043

/-- C INT_MAX, the sentinel the accumulator treats as an uninitialized minimum. -/
def intMax : Int := 2147483647

/-- C INT_MIN, the sentinel the accumulator treats as an uninitialized maximum. -/
def intMin : Int := -2147483648

/-- The C cast (int)(datum): truncation of a 64-bit value to a signed
32-bit twos-complement representative. -/
def toInt32 (d : Int) : Int := (d + 2147483648) % 4294967296 - 2147483648

/-- The list of atttypid values handled by the integer branch of the
accumulator switch (the INT8OID/INT2OID/INT2VECTOROID/INT4OID case labels). -/
def intTypeOids : List Nat := [INT8OID, INT2OID, INT2VECTOROID, INT4OID]

/-! ## Data model -/

/-- A key stored in a per-column distinct-value hash set.  The C hash set
stores integer keys (hashset_add_integer) and string keys
(hashset_add_string) with distinct encodings. -/
inductive ScalarKey where
  | intKey (v : Int)
  | strKey (s : String)
deriving DecidableEq

/-- The raw content of a Datum, viewed either as a 64-bit integer or as
the text it points to.  The C reinterprets the same 8-byte word; the two
views relevant to the piggyback code are kept as a sum. -/
inductive PgDatum where
  | intVal (v : Int)
  | textVal (s : String)
deriving DecidableEq

/-- Reading a datum as a 64-bit integer.  Reading a text datum as an
integer is unspecified pointer noise in C; no claim depends on it and it
is modeled as 0. -/
def datumAsInt : PgDatum → Int
  | .intVal v => v
  | .textVal _ => 0

/-- TextDatumGetCString: reading a datum as text. -/
def datumAsText : PgDatum → String
  | .textVal s => s
  | .intVal _ => ""

/-- One attribute of a produced row: its pg_attribute type OID, the null
flag from slot_getattr, and the datum. -/
structure AttrValue where
  atttypid : Nat
  isNull : Bool
  datum : PgDatum
deriving DecidableEq

/-- be_PGAttDesc: provenance and declared type of a result column. -/
structure ColumnDescriptor where
  srctableid : Nat
  srccolumnid : Nat
  typid : Nat
deriving DecidableEq, Inhabited

/-- One entry of piggyback->resultStatistics->columnStatistics.  The
min/max/mostFrequent cells are int cells in C, reached through pointers;
they are modeled by their integer contents. -/
structure ColumnStatistic where
  columnDescriptor : ColumnDescriptor
  isNumeric : Bool
  minValue : Int
  maxValue : Int
  mostFrequentValue : Int
  distinct_status : Nat
  n_distinctIsFinal : Bool
  minValueIsFinal : Bool
  maxValueIsFinal : Bool
  mostFrequentValueIsFinal : Bool
deriving DecidableEq, Inhabited

/-- The global Piggyback singleton, minus the plan-tree pointers that only
steer when the collector runs.  distinctValues[i] is the hash set of
column i, twoColumnsCombinations[k] the hash set of the column pair with
flat index k. -/
structure PiggybackState where
  numberOfAttributes : Nat
  columnNames : List String
  columnStatistics : List ColumnStatistic
  distinctValues : List (Finset ScalarKey)
  twoColumnsCombinations : List (Finset String)
  slotValues : List String
deriving DecidableEq

/-! ## Per-tuple accumulator (the piggyback block of ExecProcNode) -/

/-- Slot value written in the NUMERICOID case: the C renders
sprintf("%d", (int)(float)(datum)), a lossy conversion of the datum word.
The claims never depend on the resulting digits; the conversion chain is
modeled as the 32-bit truncation of the datum. -/
def numericSlotValue (d : PgDatum) : String := toString (toInt32 (datumAsInt d))

/-- One iteration of the per-attribute loop of the piggyback block in
ExecProcNode: given the attribute value, the current ColumnStatistic and
the current distinct-value set of that column, returns the updated
statistic, the updated set, and the slot value written for the row. -/
def accumAttr (a : AttrValue) (cs : ColumnStatistic) (dv : Finset ScalarKey) :
    ColumnStatistic × Finset ScalarKey × String :=
  if a.isNull then (cs, dv, "")
  else if a.atttypid ∈ intTypeOids then
    let value := toInt32 (datumAsInt a.datum)
    let cs1 := { cs with isNumeric := true }
    let cs2 :=
      if cs1.minValueIsFinal = false ∧ (value < cs1.minValue ∨ cs1.minValue = intMax) then
        { cs1 with minValue := value }
      else cs1
    let cs3 :=
      if cs2.maxValueIsFinal = false ∧ (value > cs2.maxValue ∨ cs2.maxValue = intMin) then
        { cs2 with maxValue := value }
      else cs2
    let dv1 :=
      if cs3.n_distinctIsFinal = false then insert (ScalarKey.intKey value) dv else dv
    (cs3, dv1, toString value)
  else if a.atttypid = NUMERICOID then
    (cs, dv, numericSlotValue a.datum)
  else if a.atttypid = BPCHAROID ∨ a.atttypid = VARCHAROID then
    let slot := datumAsText a.datum
    let cs1 := { cs with isNumeric := false }
    let dv1 :=
      if cs1.n_distinctIsFinal = false then insert (ScalarKey.strKey slot) dv else dv
    (cs1, dv1, slot)
  else (cs, dv, "")

/-- The whole per-attribute loop, walking the row and the per-column
arrays in lockstep.  A length mismatch is an out-of-bounds access in the
C; the model leaves the remaining entries untouched, and every theorem
below is applied at states whose array lengths agree. -/
def accumPhase :
    List AttrValue → List ColumnStatistic → List (Finset ScalarKey) →
      List ColumnStatistic × List (Finset ScalarKey) × List String
  | a :: as, cs :: css, dv :: dvs =>
    let r := accumAttr a cs dv
    let rest := accumPhase as css dvs
    (r.1 :: rest.1, r.2.1 :: rest.2.1, r.2.2 :: rest.2.2)
  | _, css, dvs => (css, dvs, [])

/-! ## Pairwise co-occurrence builder -/

/-- The flat index computed at the top of addToTwoColumnCombinationHashSet:
for (i = 1; i < from; i++) index += numberOfAttributes - i; index += to - from - 1.
Arguments f and t are the 1-based from/to used by the C code. -/
def pairCombinationIndex (n f t : Nat) : Nat :=
  (∑ i ∈ Finset.Ico 1 f, (n - i)) + (t - f - 1)

/-- The partial sums of the index loop: the offset at which the block of
pairs with 1-based from position f starts. -/
def triSum (n f : Nat) : Nat := ∑ i ∈ Finset.Ico 1 f, (n - i)

/-- addToTwoColumnCombinationHashSet: concatenates the two slot values with
no separator and inserts the key into the pair set at the flat index.  An
out-of-range index is an out-of-bounds write in C; List.set leaves the
list unchanged there, and the states used below are always well-sized. -/
def addToTwoColumnCombinationHashSet (n f : Nat) (valueToConcat : String) (t : Nat)
    (value : String) (pairs : List (Finset String)) : List (Finset String) :=
  let index := pairCombinationIndex n f t
  pairs.set index (insert (valueToConcat ++ value) (pairs.getD index ∅))

/-- buildTwoColumnCombinations: for a fixed 1-based from position f with
slot value valueToConcat, pairs it with every later column.  The C loop
runs i from f to n-1 and calls addToTwoColumnCombinationHashSet with
to = i+1 and value = slotValues[i]; the early return at f = n is the
empty loop. -/
def buildTwoColumnCombinations (n : Nat) (valueToConcat : String) (f : Nat)
    (slots : List String) (pairs : List (Finset String)) : List (Finset String) :=
  ((List.range n).drop f).foldl
    (fun ps i => addToTwoColumnCombinationHashSet n f valueToConcat (i + 1) (slots.getD i "") ps)
    pairs

/-- The piggyback block of ExecProcNode, run when the executed node is the
registered root and a nonempty tuple was produced: numberOfAttributes is
reset from the tuple descriptor, the per-attribute loop updates the
column statistics, the distinct sets, and the slot values, and the second
loop feeds every slot value into buildTwoColumnCombinations with the
1-based position i+1. -/
def execProcNodePiggyback (row : List AttrValue) (st : PiggybackState) : PiggybackState :=
  let n := row.length
  let acc := accumPhase row st.columnStatistics st.distinctValues
  let slots := acc.2.2
  let pairs := (List.range n).foldl
    (fun ps i => buildTwoColumnCombinations n (slots.getD i "") (i + 1) slots ps)
    st.twoColumnsCombinations
  { st with
    numberOfAttributes := n
    columnStatistics := acc.1
    distinctValues := acc.2.1
    slotValues := slots
    twoColumnsCombinations := pairs }

/-! ## Predicate analyzer -/

/-- One qual condition as LookForFilterWithEquality reads it: the OpExpr
operator OID, the varattno of the Var first argument, and the constvalue
of the Const second argument. -/
structure QualCond where
  opno : Nat
  varattno : Nat
  constvalue : Int
deriving DecidableEq

/-- The closed operator list recognized as an equality:
opno == 94 || 96 || 410 || 416 || 1862 || 1868 || 15 || 532 || 533. -/
def equalityOps : List Nat := [94, 96, 410, 416, 1862, 1868, 15, 532, 533]

/-- The search loop of LookForFilterWithEquality: the first position
i < numberOfAttributes whose descriptor matches (tableOid, columnId),
or numberOfAttributes when none matches. -/
def findMatchingColumn (tableOid columnId : Nat) (st : PiggybackState) : Nat :=
  (st.columnStatistics.take st.numberOfAttributes).findIdx
    (fun cs => cs.columnDescriptor.srctableid == tableOid &&
               cs.columnDescriptor.srccolumnid == columnId)

/-- LookForFilterWithEquality.  The C examines only linitial(qual); when
its operator is in the equality list and the searched column position is
inside the result table, the matching entry is overwritten with the
literal and all four finality flags; otherwise nothing is modified (the
not-found branch only prints a notice).  The srctableid of the fresh
descriptor is uninitialized malloc memory in the C, modeled as 0; no
claim reads it. -/
def LookForFilterWithEquality (tableOid : Nat) (qual : List QualCond)
    (st : PiggybackState) : PiggybackState :=
  match qual with
  | [] => st
  | cond :: _ =>
    let i := findMatchingColumn tableOid cond.varattno st
    if cond.opno ∈ equalityOps then
      if i < st.numberOfAttributes then
        let old := st.columnStatistics.getD i default
        let updated := { old with
          columnDescriptor := { srctableid := 0, srccolumnid := cond.varattno, typid := 20 }
          isNumeric := true
          maxValue := cond.constvalue
          minValue := cond.constvalue
          mostFrequentValue := cond.constvalue
          distinct_status := 1
          n_distinctIsFinal := true
          minValueIsFinal := true
          maxValueIsFinal := true
          mostFrequentValueIsFinal := true }
        { st with columnStatistics := st.columnStatistics.set i updated }
      else st
    else st

/-! ## Reporter and finalize -/

/-- printDistinctValues on a live context: one printf line per column
position, rendering the column name, the position, and
hash_get_num_entries of that column distinct-value set.  On a released
context (piggyback == NULL) nothing is printed. -/
def printDistinctValues (pb : Option PiggybackState) : List String :=
  match pb with
  | none => []
  | some st =>
    (List.range st.numberOfAttributes).map
      (fun i => "column " ++ st.columnNames.getD i "" ++ " (" ++ toString i ++ ") has " ++
        toString (st.distinctValues.getD i ∅).card ++ " distinct values.\n")

/-- The piggyback prologue of ExecEndNode: if the singleton is live, print
the metadata report and null the singleton; afterwards the context is
gone.  Returns the emitted lines and the successor context. -/
def execEndNodePiggyback (pb : Option PiggybackState) :
    List String × Option PiggybackState :=
  match pb with
  | some st => (printDistinctValues (some st), none)
  | none => ([], none)

/-! ## Iteration helper and concrete example values -/

/-- Feeding one attribute value into one column: the statistic and the
distinct set evolve, the slot value is discarded.  Iterating this is
feeding the same column several rows. -/
def accumIter (a : AttrValue) (pr : ColumnStatistic × Finset ScalarKey) :
    ColumnStatistic × Finset ScalarKey :=
  ((accumAttr a pr.1 pr.2).1, (accumAttr a pr.1 pr.2).2.1)

/-- The set of 0-based column pairs (from, to) with from < to < n, as
enumerated by the two loops of buildTwoColumnCombinations. -/
def validPairs (n : Nat) : Finset (Nat × Nat) :=
  (Finset.range n ×ˢ Finset.range n).filter (fun p => p.1 < p.2)

/-- A freshly allocated column statistic: sentinels in min/max, no flag
set (the state of an entry before any row or predicate touched it). -/
def csFresh : ColumnStatistic :=
  { columnDescriptor := ⟨5, 1, 23⟩, isNumeric := false, minValue := intMax,
    maxValue := intMin, mostFrequentValue := 0, distinct_status := 0,
    n_distinctIsFinal := false, minValueIsFinal := false, maxValueIsFinal := false,
    mostFrequentValueIsFinal := false }

/-- A column statistic as the predicate analyzer leaves it for col = 42. -/
def csAllFinal : ColumnStatistic :=
  { csFresh with
    isNumeric := true, minValue := 42, maxValue := 42,
    mostFrequentValue := 42, distinct_status := 1, n_distinctIsFinal := true,
    minValueIsFinal := true, maxValueIsFinal := true, mostFrequentValueIsFinal := true }

/-- csAllFinal with the four finality flags cleared and nothing else changed. -/
def csAllFinalOff : ColumnStatistic :=
  { csAllFinal with
    n_distinctIsFinal := false, minValueIsFinal := false,
    maxValueIsFinal := false, mostFrequentValueIsFinal := false }

/-- A non-null int4 attribute. -/
def intAttr (v : Int) : AttrValue := ⟨INT4OID, false, PgDatum.intVal v⟩

/-- A non-null varchar attribute. -/
def textAttr (s : String) : AttrValue := ⟨VARCHAROID, false, PgDatum.textVal s⟩

/-- A non-null numeric attribute. -/
def numAttr (v : Int) : AttrValue := ⟨NUMERICOID, false, PgDatum.intVal v⟩

/-- A bigint attribute whose value needs more than 32 bits. -/
def attrBig : AttrValue := ⟨INT8OID, false, PgDatum.intVal 2147483648⟩

/-- A one-column context whose only statistic is untouched. -/
def stOneCol : PiggybackState :=
  { numberOfAttributes := 1, columnNames := ["c"], columnStatistics := [csFresh],
    distinctValues := [∅], twoColumnsCombinations := [], slotValues := [] }

/-- A one-column context whose statistic was finalized by the analyzer and
whose distinct set already holds one key. -/
def stOneFinal : PiggybackState :=
  { stOneCol with
    columnStatistics := [csAllFinal],
    distinctValues := [{ScalarKey.intKey 42}] }

/-- stOneFinal with the finality flags cleared and nothing else changed. -/
def stOneFinalOff : PiggybackState :=
  { stOneFinal with columnStatistics := [csAllFinalOff] }

/-- A two-column context with one (empty) pair set. -/
def stTwoCols : PiggybackState :=
  { numberOfAttributes := 2, columnNames := ["a", "b"],
    columnStatistics := [csFresh, { csFresh with columnDescriptor := ⟨5, 2, 23⟩ }],
    distinctValues := [∅, ∅], twoColumnsCombinations := [∅], slotValues := [] }

/-- A conjunction qual, a = 42 AND a > 7: two implicitly ANDed conditions,
the first a recognized equality, the second a range comparison. -/
def qualConj : List QualCond := [⟨94, 1, 42⟩, ⟨521, 1, 7⟩]

/-- An arity-3 row mixing integer and text columns. -/
def row3 : List AttrValue := [intAttr 7, textAttr "x", intAttr 9]

/-- A three-column context with its 3 = 3*2/2 empty pair sets. -/
def stThreeCols : PiggybackState :=
  { numberOfAttributes := 3, columnNames := ["a", "b", "c"],
    columnStatistics := [csFresh, { csFresh with columnDescriptor := ⟨5, 2, 23⟩ },
      { csFresh with columnDescriptor := ⟨5, 3, 1043⟩ }],
    distinctValues := [∅, ∅, ∅], twoColumnsCombinations := [∅, ∅, ∅], slotValues := [] }

/-! ## Helper lemmas about the accumulator -/

theorem accumAttr_flags (a : AttrValue) (cs : ColumnStatistic) (dv : Finset ScalarKey) :
    (accumAttr a cs dv).1.minValueIsFinal = cs.minValueIsFinal ∧
    (accumAttr a cs dv).1.maxValueIsFinal = cs.maxValueIsFinal ∧
    (accumAttr a cs dv).1.n_distinctIsFinal = cs.n_distinctIsFinal ∧
    (accumAttr a cs dv).1.mostFrequentValueIsFinal = cs.mostFrequentValueIsFinal := by
  obtain ⟨d, isn, mn, mx, mf, ds, f1, f2, f3, f4⟩ := cs
  unfold accumAttr
  simp only [apply_ite ColumnStatistic.minValue, apply_ite ColumnStatistic.maxValue,
    apply_ite ColumnStatistic.minValueIsFinal, apply_ite ColumnStatistic.maxValueIsFinal,
    apply_ite ColumnStatistic.n_distinctIsFinal,
    apply_ite ColumnStatistic.mostFrequentValueIsFinal, ite_self]
  split_ifs <;> simp_all

theorem accumAttr_min_final (a : AttrValue) (cs : ColumnStatistic) (dv : Finset ScalarKey)
    (h : cs.minValueIsFinal = true) : (accumAttr a cs dv).1.minValue = cs.minValue := by
  obtain ⟨d, isn, mn, mx, mf, ds, f1, f2, f3, f4⟩ := cs
  unfold accumAttr
  simp only [apply_ite ColumnStatistic.minValue, apply_ite ColumnStatistic.maxValue,
    apply_ite ColumnStatistic.minValueIsFinal, apply_ite ColumnStatistic.maxValueIsFinal,
    apply_ite ColumnStatistic.n_distinctIsFinal,
    apply_ite ColumnStatistic.mostFrequentValueIsFinal, ite_self]
  split_ifs <;> simp_all

theorem accumAttr_max_final (a : AttrValue) (cs : ColumnStatistic) (dv : Finset ScalarKey)
    (h : cs.maxValueIsFinal = true) : (accumAttr a cs dv).1.maxValue = cs.maxValue := by
  obtain ⟨d, isn, mn, mx, mf, ds, f1, f2, f3, f4⟩ := cs
  unfold accumAttr
  simp only [apply_ite ColumnStatistic.minValue, apply_ite ColumnStatistic.maxValue,
    apply_ite ColumnStatistic.minValueIsFinal, apply_ite ColumnStatistic.maxValueIsFinal,
    apply_ite ColumnStatistic.n_distinctIsFinal,
    apply_ite ColumnStatistic.mostFrequentValueIsFinal, ite_self]
  split_ifs <;> simp_all

theorem accumAttr_dv_final (a : AttrValue) (cs : ColumnStatistic) (dv : Finset ScalarKey)
    (h : cs.n_distinctIsFinal = true) : (accumAttr a cs dv).2.1 = dv := by
  obtain ⟨d, isn, mn, mx, mf, ds, f1, f2, f3, f4⟩ := cs
  unfold accumAttr
  simp only [apply_ite ColumnStatistic.minValue, apply_ite ColumnStatistic.maxValue,
    apply_ite ColumnStatistic.minValueIsFinal, apply_ite ColumnStatistic.maxValueIsFinal,
    apply_ite ColumnStatistic.n_distinctIsFinal,
    apply_ite ColumnStatistic.mostFrequentValueIsFinal, ite_self]
  split_ifs <;> simp_all

theorem accumPhase_getElem? (row : List AttrValue) (css : List ColumnStatistic)
    (dvs : List (Finset ScalarKey)) (p : Nat) :
    ((accumPhase row css dvs).1[p]? = css[p]? ∧ (accumPhase row css dvs).2.1[p]? = dvs[p]?) ∨
    (∃ a cs dv, row[p]? = some a ∧ css[p]? = some cs ∧ dvs[p]? = some dv ∧
      (accumPhase row css dvs).1[p]? = some (accumAttr a cs dv).1 ∧
      (accumPhase row css dvs).2.1[p]? = some (accumAttr a cs dv).2.1) := by
  induction row generalizing css dvs p with
  | nil => exact Or.inl ⟨rfl, rfl⟩
  | cons a as ih =>
    cases css with
    | nil => exact Or.inl ⟨rfl, rfl⟩
    | cons cs css =>
      cases dvs with
      | nil => exact Or.inl ⟨rfl, rfl⟩
      | cons dv dvs =>
        cases p with
        | zero =>
          exact Or.inr ⟨a, cs, dv, by simp, by simp, by simp,
            by simp [accumPhase], by simp [accumPhase]⟩
        | succ p =>
          rcases ih css dvs p with ⟨h1, h2⟩ | ⟨a0, cs0, dv0, h1, h2, h3, h4, h5⟩
          · exact Or.inl ⟨by simpa [accumPhase] using h1, by simpa [accumPhase] using h2⟩
          · exact Or.inr ⟨a0, cs0, dv0, by simpa using h1, by simpa using h2,
              by simpa using h3, by simpa [accumPhase] using h4, by simpa [accumPhase] using h5⟩

theorem execProcNodePiggyback_stats (row : List AttrValue) (st : PiggybackState) :
    (execProcNodePiggyback row st).columnStatistics =
      (accumPhase row st.columnStatistics st.distinctValues).1 := rfl

theorem execProcNodePiggyback_dvs (row : List AttrValue) (st : PiggybackState) :
    (execProcNodePiggyback row st).distinctValues =
      (accumPhase row st.columnStatistics st.distinctValues).2.1 := rfl

theorem lookFor_nil (tableOid : Nat) (st : PiggybackState) :
    LookForFilterWithEquality tableOid [] st = st := rfl

theorem lookFor_notEq (tableOid : Nat) (cond : QualCond) (rest : List QualCond)
    (st : PiggybackState) (hop : cond.opno ∉ equalityOps) :
    LookForFilterWithEquality tableOid (cond :: rest) st = st := by
  unfold LookForFilterWithEquality
  simp [hop]

theorem lookFor_notFound (tableOid : Nat) (cond : QualCond) (rest : List QualCond)
    (st : PiggybackState) (hop : cond.opno ∈ equalityOps)
    (hge : ¬ findMatchingColumn tableOid cond.varattno st < st.numberOfAttributes) :
    LookForFilterWithEquality tableOid (cond :: rest) st = st := by
  unfold LookForFilterWithEquality
  simp [hop, hge]

theorem lookFor_found_stats (tableOid : Nat) (cond : QualCond) (rest : List QualCond)
    (st : PiggybackState) (hop : cond.opno ∈ equalityOps)
    (hlt : findMatchingColumn tableOid cond.varattno st < st.numberOfAttributes) :
    (LookForFilterWithEquality tableOid (cond :: rest) st).columnStatistics =
      st.columnStatistics.set (findMatchingColumn tableOid cond.varattno st)
        { st.columnStatistics.getD (findMatchingColumn tableOid cond.varattno st) default with
          columnDescriptor := { srctableid := 0, srccolumnid := cond.varattno, typid := 20 }
          isNumeric := true
          maxValue := cond.constvalue
          minValue := cond.constvalue
          mostFrequentValue := cond.constvalue
          distinct_status := 1
          n_distinctIsFinal := true
          minValueIsFinal := true
          maxValueIsFinal := true
          mostFrequentValueIsFinal := true } := by
  unfold LookForFilterWithEquality
  simp only [hop, hlt, if_true, ite_true]

/-! ## Claim theorems -/

/-- Claim C8: invoking finalize more than once is a safe no-op: a finalize
leaves the context released, the first finalize on a live context emits
the report, and a finalize on the released context emits nothing and
changes nothing. -/
theorem C8_double_finalize (pb : Option PiggybackState) :
    (execEndNodePiggyback pb).2 = none ∧
    execEndNodePiggyback (execEndNodePiggyback pb).2 = ([], none) ∧
    (∀ st, (execEndNodePiggyback (some st)).1 = printDistinctValues (some st)) := by
  refine ⟨?_, ?_, fun st => rfl⟩ <;> cases pb <;> rfl

/-- Claim C6, counterexample: for a column whose four finality flags are
set, the reporter does not emit a short-circuit note; it prints the
ordinary cardinality line, indistinguishable from the same state with the
flags cleared. -/
theorem C6_counterexample :
    (stOneFinal.columnStatistics.getD 0 default).n_distinctIsFinal = true ∧
    (stOneFinal.columnStatistics.getD 0 default).minValueIsFinal = true ∧
    printDistinctValues (some stOneFinal) = ["column c (0) has 1 distinct values.\n"] ∧
    printDistinctValues (some stOneFinal) = printDistinctValues (some stOneFinalOff) := by
  refine ⟨rfl, rfl, ?_, ?_⟩ <;> decide

/-- Claim C6, amended: on finalize the reporter emits, for every column
position, exactly one line of the form
column NAME (POSITION) has COUNT distinct values., where COUNT is the
cardinality of that column distinct-value set regardless of the finality
flags (final columns get the same count line, with no short-circuit
note). -/
theorem C6_report_format (st : PiggybackState) :
    (printDistinctValues (some st)).length = st.numberOfAttributes ∧
    ∀ p, p < st.numberOfAttributes →
      (printDistinctValues (some st))[p]? =
        some ("column " ++ st.columnNames.getD p "" ++ " (" ++ toString p ++ ") has " ++
          toString (st.distinctValues.getD p ∅).card ++ " distinct values.\n") := by
  constructor
  · simp [printDistinctValues]
  · intro p hp
    simp [printDistinctValues, List.getElem?_map, List.getElem?_range hp]

theorem C6_report_format_witness :
    (printDistinctValues (some stOneFinal)).length = stOneFinal.numberOfAttributes ∧
    (printDistinctValues (some stOneFinal))[0]? =
      some ("column " ++ stOneFinal.columnNames.getD 0 "" ++ " (" ++ toString 0 ++ ") has " ++
        toString (stOneFinal.distinctValues.getD 0 ∅).card ++ " distinct values.\n") :=
  ⟨(C6_report_format stOneFinal).1, (C6_report_format stOneFinal).2 0 (by decide)⟩

/-- Claim C7, counterexample: a conjunction of two conditions whose first
conjunct is a recognized equality is not ignored: the analyzer overwrites
the matching column statistic. -/
theorem C7_counterexample :
    qualConj.length = 2 ∧
    ((LookForFilterWithEquality 5 qualConj stOneCol).columnStatistics.getD 0 default).minValue
      = 42 ∧
    ((LookForFilterWithEquality 5 qualConj stOneCol).columnStatistics.getD 0
      default).minValueIsFinal = true ∧
    LookForFilterWithEquality 5 qualConj stOneCol ≠ stOneCol := by
  refine ⟨rfl, ?_, ?_, ?_⟩ <;> decide

/-- Claim C7, amended: the analyzer examines only the first top-level
condition of the residual predicate.  If the predicate is empty, or its
first condition uses an operator outside the recognized equality list
(range comparisons, non-equality operators), no column statistic is
modified and the state is returned unchanged, silently.  A conjunction is
not rejected as such: when its first conjunct is a recognized
column-literal equality, the statistics are modified as in the lone
equality case. -/
theorem C7_first_condition_gate :
    (∀ tableOid st, LookForFilterWithEquality tableOid [] st = st) ∧
    (∀ tableOid (c : QualCond) rest st, c.opno ∉ equalityOps →
      LookForFilterWithEquality tableOid (c :: rest) st = st) := by
  refine ⟨fun tableOid st => rfl, fun tableOid c rest st hop => ?_⟩
  unfold LookForFilterWithEquality
  simp [hop]

theorem C7_first_condition_gate_witness :
    LookForFilterWithEquality 5 [⟨521, 1, 7⟩] stOneCol = stOneCol :=
  C7_first_condition_gate.2 5 ⟨521, 1, 7⟩ [] stOneCol (by decide)

/-- Claim C9, counterexample: the accumulator does not coerce to a signed
64-bit representation.  For a bigint attribute with datum 2^31 hitting a
fresh statistic, a 64-bit coercion would store 2147483648 as the new
minimum; the code casts through a 32-bit int and stores -2147483648. -/
theorem C9_counterexample :
    attrBig.isNull = false ∧ attrBig.atttypid ∈ intTypeOids ∧
    datumAsInt attrBig.datum = 2147483648 ∧
    csFresh.minValueIsFinal = false ∧ csFresh.minValue = intMax ∧
    (accumAttr attrBig csFresh ∅).1.minValue = -2147483648 ∧
    ((-2147483648 : Int) ≠ 2147483648) := by
  refine ⟨rfl, by decide, rfl, rfl, rfl, by decide, by decide⟩

/-- Claim C9, amended: for every non-null value of an integer-family
column (the int8, int2, int2vector and int4 type OIDs), the accumulator
coerces the 64-bit datum to its signed 32-bit twos-complement
representative (congruent mod 2^32, in the interval from -2^31 to
2^31 - 1) before updating min_value, max_value and the distinct set, and
marks the column is_numeric = true. -/
theorem C9_int32_coercion (a : AttrValue) (cs : ColumnStatistic) (dv : Finset ScalarKey)
    (hnull : a.isNull = false) (hty : a.atttypid ∈ intTypeOids) :
    ∃ v : Int, -(2 ^ 31) ≤ v ∧ v < 2 ^ 31 ∧ (datumAsInt a.datum - v) % 2 ^ 32 = 0 ∧
      (accumAttr a cs dv).1.isNumeric = true ∧
      (accumAttr a cs dv).1.minValue =
        (if cs.minValueIsFinal = false ∧ (v < cs.minValue ∨ cs.minValue = intMax) then v
         else cs.minValue) ∧
      (accumAttr a cs dv).1.maxValue =
        (if cs.maxValueIsFinal = false ∧ (v > cs.maxValue ∨ cs.maxValue = intMin) then v
         else cs.maxValue) ∧
      (accumAttr a cs dv).2.1 =
        (if cs.n_distinctIsFinal = false then insert (ScalarKey.intKey v) dv else dv) := by
  refine ⟨toInt32 (datumAsInt a.datum), ?_, ?_, ?_, ?_, ?_, ?_, ?_⟩
  · unfold toInt32; omega
  · unfold toInt32; omega
  · unfold toInt32; omega
  all_goals
    unfold accumAttr
    simp only [hnull, hty, Bool.false_eq_true, if_false, if_true, reduceIte]
    split_ifs <;> simp_all

theorem C9_int32_coercion_witness :
    attrBig.isNull = false ∧
    ∃ v : Int, -(2 ^ 31) ≤ v ∧ v < 2 ^ 31 ∧ (datumAsInt attrBig.datum - v) % 2 ^ 32 = 0 ∧
      (accumAttr attrBig csFresh ∅).1.isNumeric = true ∧
      (accumAttr attrBig csFresh ∅).1.minValue =
        (if csFresh.minValueIsFinal = false ∧ (v < csFresh.minValue ∨ csFresh.minValue = intMax)
         then v else csFresh.minValue) ∧
      (accumAttr attrBig csFresh ∅).1.maxValue =
        (if csFresh.maxValueIsFinal = false ∧ (v > csFresh.maxValue ∨ csFresh.maxValue = intMin)
         then v else csFresh.maxValue) ∧
      (accumAttr attrBig csFresh ∅).2.1 =
        (if csFresh.n_distinctIsFinal = false then insert (ScalarKey.intKey v) ∅ else ∅) :=
  ⟨rfl, C9_int32_coercion attrBig csFresh ∅ rfl (by decide)⟩

/-- Claim C10: for a non-null value of a NUMERIC column the accumulator
records only the textual slot value; the column statistic, its distinct
set and its is_numeric flag are untouched, and a column fed only numeric
values keeps an empty distinct set, so its reported distinct count is 0. -/
theorem C10_numeric_frame :
    (∀ (a : AttrValue) (cs : ColumnStatistic) (dv : Finset ScalarKey),
      a.isNull = false → a.atttypid = NUMERICOID →
      accumAttr a cs dv = (cs, dv, numericSlotValue a.datum)) ∧
    (∀ (as : List AttrValue) (cs : ColumnStatistic),
      (∀ a ∈ as, a.isNull = false ∧ a.atttypid = NUMERICOID) →
      as.foldl (fun pr a => accumIter a pr) (cs, (∅ : Finset ScalarKey)) = (cs, ∅) ∧
      (as.foldl (fun pr a => accumIter a pr) (cs, (∅ : Finset ScalarKey))).2.card = 0) := by
  have base : ∀ (a : AttrValue) (cs : ColumnStatistic) (dv : Finset ScalarKey),
      a.isNull = false → a.atttypid = NUMERICOID →
      accumAttr a cs dv = (cs, dv, numericSlotValue a.datum) := by
    intro a cs dv hnull hty
    unfold accumAttr
    rw [hty]
    simp [hnull, intTypeOids, INT8OID, INT2OID, INT2VECTOROID, INT4OID, NUMERICOID]
  refine ⟨base, fun as => ?_⟩
  induction as with
  | nil => intro cs _; exact ⟨rfl, rfl⟩
  | cons a as ih =>
    intro cs h
    have h0 := h a (List.mem_cons_self a as)
    have hstep : accumIter a (cs, (∅ : Finset ScalarKey)) = (cs, ∅) := by
      unfold accumIter
      rw [base a cs ∅ h0.1 h0.2]
    have := ih cs (fun b hb => h b (List.mem_cons_of_mem a hb))
    simpa [hstep] using this

theorem C10_numeric_frame_witness :
    accumAttr (numAttr 9) csFresh ∅ = (csFresh, ∅, numericSlotValue (numAttr 9).datum) ∧
    List.foldl (fun pr a => accumIter a pr) (csFresh, (∅ : Finset ScalarKey))
      [numAttr 9, numAttr 9, numAttr 4] = (csFresh, ∅) :=
  ⟨C10_numeric_frame.1 (numAttr 9) csFresh ∅ rfl rfl,
    (C10_numeric_frame.2 [numAttr 9, numAttr 9, numAttr 4] csFresh (by decide)).1⟩

/-- Claim C1: a residual predicate that is a single top-level equality
between a column and a literal, whose column is first matched by the
descriptor search at output position p inside the result arity, leaves
stats[p] with min = max = mostFrequent = the literal, is_numeric true and
all four finality flags set, before any row is processed. -/
theorem C1_equality_short_circuit (tableOid : Nat) (c : QualCond) (st : PiggybackState)
    (p : Nat) (hop : c.opno ∈ equalityOps)
    (hlen : st.numberOfAttributes ≤ st.columnStatistics.length)
    (hfind : findMatchingColumn tableOid c.varattno st = p)
    (hp : p < st.numberOfAttributes) :
    ∃ cs', (LookForFilterWithEquality tableOid [c] st).columnStatistics[p]? = some cs' ∧
      cs'.minValue = c.constvalue ∧ cs'.maxValue = c.constvalue ∧
      cs'.mostFrequentValue = c.constvalue ∧ cs'.isNumeric = true ∧
      cs'.minValueIsFinal = true ∧ cs'.maxValueIsFinal = true ∧
      cs'.n_distinctIsFinal = true ∧ cs'.mostFrequentValueIsFinal = true := by
  have hplen : p < st.columnStatistics.length := lt_of_lt_of_le hp hlen
  have hstats : (LookForFilterWithEquality tableOid [c] st).columnStatistics =
      st.columnStatistics.set p
        { st.columnStatistics.getD p default with
          columnDescriptor := { srctableid := 0, srccolumnid := c.varattno, typid := 20 }
          isNumeric := true
          maxValue := c.constvalue
          minValue := c.constvalue
          mostFrequentValue := c.constvalue
          distinct_status := 1
          n_distinctIsFinal := true
          minValueIsFinal := true
          maxValueIsFinal := true
          mostFrequentValueIsFinal := true } := by
    unfold LookForFilterWithEquality
    simp only [hfind, hop, hp, if_true, ite_true]
  rw [hstats, List.getElem?_set_self (by simpa using hplen)]
  exact ⟨_, rfl, rfl, rfl, rfl, rfl, rfl, rfl, rfl, rfl⟩

theorem C1_equality_short_circuit_witness :
    ∃ cs', (LookForFilterWithEquality 5 [⟨94, 1, 42⟩] stOneCol).columnStatistics[0]? =
        some cs' ∧
      cs'.minValue = 42 ∧ cs'.maxValue = 42 ∧ cs'.mostFrequentValue = 42 ∧
      cs'.isNumeric = true ∧ cs'.minValueIsFinal = true ∧ cs'.maxValueIsFinal = true ∧
      cs'.n_distinctIsFinal = true ∧ cs'.mostFrequentValueIsFinal = true :=
  C1_equality_short_circuit 5 ⟨94, 1, 42⟩ stOneCol 0 (by decide) (by decide)
    (by decide) (by decide)

/-- Claim C2: the finality lock.  For a column whose finality flags are
set, processing any further row alters neither its min, nor its max, nor
its distinct-value set; the per-tuple accumulator never changes any of
the four finality flags of any column; and the predicate analyzer either
leaves the four flags of a column unchanged or sets all four together. -/
theorem C2_finality_lock :
    (∀ (row : List AttrValue) (st : PiggybackState) (p : Nat) (cs : ColumnStatistic),
      st.columnStatistics[p]? = some cs →
      cs.minValueIsFinal = true → cs.maxValueIsFinal = true → cs.n_distinctIsFinal = true →
      (∃ cs', (execProcNodePiggyback row st).columnStatistics[p]? = some cs' ∧
        cs'.minValue = cs.minValue ∧ cs'.maxValue = cs.maxValue) ∧
      (execProcNodePiggyback row st).distinctValues[p]? = st.distinctValues[p]?) ∧
    (∀ (row : List AttrValue) (st : PiggybackState) (p : Nat) (cs cs' : ColumnStatistic),
      st.columnStatistics[p]? = some cs →
      (execProcNodePiggyback row st).columnStatistics[p]? = some cs' →
      cs'.minValueIsFinal = cs.minValueIsFinal ∧ cs'.maxValueIsFinal = cs.maxValueIsFinal ∧
      cs'.n_distinctIsFinal = cs.n_distinctIsFinal ∧
      cs'.mostFrequentValueIsFinal = cs.mostFrequentValueIsFinal) ∧
    (∀ (tableOid : Nat) (qual : List QualCond) (st : PiggybackState) (p : Nat)
        (cs cs' : ColumnStatistic),
      st.columnStatistics[p]? = some cs →
      (LookForFilterWithEquality tableOid qual st).columnStatistics[p]? = some cs' →
      (cs'.minValueIsFinal = cs.minValueIsFinal ∧ cs'.maxValueIsFinal = cs.maxValueIsFinal ∧
        cs'.n_distinctIsFinal = cs.n_distinctIsFinal ∧
        cs'.mostFrequentValueIsFinal = cs.mostFrequentValueIsFinal) ∨
      (cs'.minValueIsFinal = true ∧ cs'.maxValueIsFinal = true ∧
        cs'.n_distinctIsFinal = true ∧ cs'.mostFrequentValueIsFinal = true)) := by
  refine ⟨?_, ?_, ?_⟩
  · intro row st p cs hcs hmin hmax hdist
    rw [execProcNodePiggyback_stats, execProcNodePiggyback_dvs]
    rcases accumPhase_getElem? row st.columnStatistics st.distinctValues p with
      ⟨h1, h2⟩ | ⟨a, cs0, dv0, _, hcss, hdv, h4, h5⟩
    · exact ⟨⟨cs, by rw [h1, hcs], rfl, rfl⟩, h2⟩
    · rw [hcs] at hcss
      obtain rfl : cs = cs0 := by injection hcss
      refine ⟨⟨(accumAttr a cs dv0).1, h4, accumAttr_min_final a cs dv0 hmin,
        accumAttr_max_final a cs dv0 hmax⟩, ?_⟩
      rw [h5, accumAttr_dv_final a cs dv0 hdist, hdv]
  · intro row st p cs cs' hcs hcs'
    rw [execProcNodePiggyback_stats] at hcs'
    rcases accumPhase_getElem? row st.columnStatistics st.distinctValues p with
      ⟨h1, _⟩ | ⟨a, cs0, dv0, _, hcss, _, h4, _⟩
    · rw [h1, hcs] at hcs'
      obtain rfl : cs = cs' := by injection hcs'
      exact ⟨rfl, rfl, rfl, rfl⟩
    · rw [hcs] at hcss
      obtain rfl : cs = cs0 := by injection hcss
      rw [h4] at hcs'
      obtain rfl : (accumAttr a cs dv0).1 = cs' := by injection hcs'
      exact accumAttr_flags a cs dv0
  · intro tableOid qual st p cs cs' hcs hcs'
    match qual with
    | [] =>
      rw [lookFor_nil, hcs] at hcs'
      obtain rfl : cs = cs' := by injection hcs'
      exact Or.inl ⟨rfl, rfl, rfl, rfl⟩
    | cond :: rest =>
      by_cases hop : cond.opno ∈ equalityOps
      · by_cases hlt : findMatchingColumn tableOid cond.varattno st < st.numberOfAttributes
        · rw [lookFor_found_stats tableOid cond rest st hop hlt] at hcs'
          by_cases hip : findMatchingColumn tableOid cond.varattno st = p
          · subst hip
            rcases lt_or_ge (findMatchingColumn tableOid cond.varattno st)
                st.columnStatistics.length with hl | hl
            · rw [List.getElem?_set_self (by simpa using hl)] at hcs'
              obtain rfl := (Option.some_inj.mp hcs').symm
              exact Or.inr ⟨rfl, rfl, rfl, rfl⟩
            · rw [List.set_eq_of_length_le (by simpa using hl), hcs] at hcs'
              obtain rfl : cs = cs' := by injection hcs'
              exact Or.inl ⟨rfl, rfl, rfl, rfl⟩
          · rw [List.getElem?_set_ne hip, hcs] at hcs'
            obtain rfl : cs = cs' := by injection hcs'
            exact Or.inl ⟨rfl, rfl, rfl, rfl⟩
        · rw [lookFor_notFound tableOid cond rest st hop hlt, hcs] at hcs'
          obtain rfl : cs = cs' := by injection hcs'
          exact Or.inl ⟨rfl, rfl, rfl, rfl⟩
      · rw [lookFor_notEq tableOid cond rest st hop, hcs] at hcs'
        obtain rfl : cs = cs' := by injection hcs'
        exact Or.inl ⟨rfl, rfl, rfl, rfl⟩

theorem C2_finality_lock_witness :
    (∃ cs', (execProcNodePiggyback [intAttr 7] stOneFinal).columnStatistics[0]? = some cs' ∧
      cs'.minValue = csAllFinal.minValue ∧ cs'.maxValue = csAllFinal.maxValue) ∧
    (execProcNodePiggyback [intAttr 7] stOneFinal).distinctValues[0]? =
      stOneFinal.distinctValues[0]? :=
  C2_finality_lock.1 [intAttr 7] stOneFinal 0 csAllFinal (by decide) (by decide)
    (by decide) (by decide)

theorem accumIter_idem (a : AttrValue) (pr : ColumnStatistic × Finset ScalarKey) :
    accumIter a (accumIter a pr) = accumIter a pr := by
  obtain ⟨cs, dv⟩ := pr
  obtain ⟨d, isn, mn, mx, mf, ds, f1, f2, f3, f4⟩ := cs
  cases hnull : a.isNull with
  | true => simp [accumIter, accumAttr, hnull]
  | false =>
    by_cases hint : a.atttypid ∈ intTypeOids
    · unfold accumIter accumAttr
      simp only [hnull, hint, Bool.false_eq_true, if_false, if_true,
        apply_ite ColumnStatistic.minValue, apply_ite ColumnStatistic.maxValue,
        apply_ite ColumnStatistic.minValueIsFinal, apply_ite ColumnStatistic.maxValueIsFinal,
        apply_ite ColumnStatistic.n_distinctIsFinal, ite_self]
      split_ifs <;> simp_all [Finset.insert_idem]
    · by_cases hnum : a.atttypid = NUMERICOID
      · simp [accumIter, accumAttr, hnull, hnum, intTypeOids, INT8OID, INT2OID,
          INT2VECTOROID, INT4OID, NUMERICOID]
      · by_cases htext : a.atttypid = BPCHAROID ∨ a.atttypid = VARCHAROID
        · unfold accumIter accumAttr
          simp only [hnull, hint, hnum, htext, Bool.false_eq_true, if_false, if_true,
            apply_ite ColumnStatistic.n_distinctIsFinal, ite_self]
          split_ifs <;> simp_all [Finset.insert_idem]
        · simp [accumIter, accumAttr, hnull, hint, hnum, htext]

theorem accumIter_iterate (a : AttrValue) (pr : ColumnStatistic × Finset ScalarKey)
    (N : Nat) (hN : 1 ≤ N) : (accumIter a)^[N] pr = accumIter a pr := by
  cases N with
  | zero => omega
  | succ n =>
    clear hN
    induction n with
    | zero => rfl
    | succ m ih =>
      rw [Function.iterate_succ_apply', ih, accumIter_idem]

/-- Claim C3: for a non-final numeric column, min is replaced only by a
strictly smaller value (or when the stored minimum is the uninitialized
sentinel), max symmetrically; consequently feeding the same integer value
N times (N at least 1) leaves both extremes exactly as they are after the
first of those rows. -/
theorem C3_idempotent_extremes :
    (∀ (a : AttrValue) (cs : ColumnStatistic) (dv : Finset ScalarKey),
      a.isNull = false → a.atttypid ∈ intTypeOids →
      ((accumAttr a cs dv).1.minValue ≠ cs.minValue →
        cs.minValueIsFinal = false ∧
          (toInt32 (datumAsInt a.datum) < cs.minValue ∨ cs.minValue = intMax)) ∧
      ((accumAttr a cs dv).1.maxValue ≠ cs.maxValue →
        cs.maxValueIsFinal = false ∧
          (toInt32 (datumAsInt a.datum) > cs.maxValue ∨ cs.maxValue = intMin))) ∧
    (∀ (a : AttrValue) (pr : ColumnStatistic × Finset ScalarKey) (N : Nat), 1 ≤ N →
      ((accumIter a)^[N] pr).1.minValue = (accumIter a pr).1.minValue ∧
      ((accumIter a)^[N] pr).1.maxValue = (accumIter a pr).1.maxValue) := by
  constructor
  · intro a cs dv hnull hint
    obtain ⟨d, isn, mn, mx, mf, ds, f1, f2, f3, f4⟩ := cs
    unfold accumAttr
    simp only [hnull, hint, Bool.false_eq_true, if_false, if_true,
      apply_ite ColumnStatistic.minValue, apply_ite ColumnStatistic.maxValue,
      apply_ite ColumnStatistic.minValueIsFinal, apply_ite ColumnStatistic.maxValueIsFinal,
      ite_self]
    split_ifs <;> simp_all
  · intro a pr N hN
    rw [accumIter_iterate a pr N hN]
    exact ⟨rfl, rfl⟩

theorem C3_idempotent_extremes_witness :
    (((accumAttr (intAttr 5) csFresh ∅).1.minValue ≠ csFresh.minValue →
      csFresh.minValueIsFinal = false ∧
        (toInt32 (datumAsInt (intAttr 5).datum) < csFresh.minValue ∨
          csFresh.minValue = intMax)) ∧
     ((accumAttr (intAttr 5) csFresh ∅).1.maxValue ≠ csFresh.maxValue →
      csFresh.maxValueIsFinal = false ∧
        (toInt32 (datumAsInt (intAttr 5).datum) > csFresh.maxValue ∨
          csFresh.maxValue = intMin))) ∧
    (((accumIter (intAttr 5))^[3] (csFresh, ∅)).1.minValue =
        (accumIter (intAttr 5) (csFresh, ∅)).1.minValue ∧
      ((accumIter (intAttr 5))^[3] (csFresh, ∅)).1.maxValue =
        (accumIter (intAttr 5) (csFresh, ∅)).1.maxValue) :=
  ⟨C3_idempotent_extremes.1 (intAttr 5) csFresh ∅ rfl (by decide),
   C3_idempotent_extremes.2 (intAttr 5) (csFresh, ∅) 3 (by decide)⟩

/-! ## The triangular index mapping (claim C5) -/

theorem pairCombinationIndex_eq (n f t : Nat) :
    pairCombinationIndex n (f + 1) (t + 1) = triSum n (f + 1) + (t - f - 1) := by
  have h : t + 1 - (f + 1) - 1 = t - f - 1 := by omega
  rw [pairCombinationIndex, triSum, h]

theorem triSum_mono (n : Nat) {a b : Nat} (h : a ≤ b) : triSum n a ≤ triSum n b :=
  Finset.sum_le_sum_of_subset (Finset.Ico_subset_Ico le_rfl h)

theorem triSum_succ_top (n k : Nat) (hk : 1 ≤ k) :
    triSum n (k + 1) = triSum n k + (n - k) :=
  Finset.sum_Ico_succ_top hk _

theorem triSum_diag_succ (n : Nat) : triSum (n + 1) (n + 1) = triSum n n + n := by
  match n with
  | 0 => simp [triSum]
  | m + 1 =>
    have h1 : 1 ≤ m + 1 := Nat.succ_le_succ (Nat.zero_le m)
    have step : triSum (m + 2) (m + 2) =
        (∑ i ∈ Finset.Ico 1 (m + 1), (m + 2 - i)) + (m + 2 - (m + 1)) :=
      Finset.sum_Ico_succ_top h1 _
    have congrStep : ∑ i ∈ Finset.Ico 1 (m + 1), (m + 2 - i) =
        ∑ i ∈ Finset.Ico 1 (m + 1), ((m + 1 - i) + 1) := by
      refine Finset.sum_congr rfl ?_
      intro i hi
      rw [Finset.mem_Ico] at hi
      omega
    have distrib : ∑ i ∈ Finset.Ico 1 (m + 1), ((m + 1 - i) + 1) =
        (∑ i ∈ Finset.Ico 1 (m + 1), (m + 1 - i)) + m := by
      rw [Finset.sum_add_distrib, Finset.sum_const, Nat.card_Ico, smul_eq_mul, mul_one]
      omega
    rw [step, congrStep, distrib]
    show triSum (m + 1) (m + 1) + m + (m + 2 - (m + 1)) = triSum (m + 1) (m + 1) + (m + 1)
    omega

theorem triSum_diag (n : Nat) : triSum n n = ∑ i ∈ Finset.range n, i := by
  induction n with
  | zero => rfl
  | succ m ih => rw [triSum_diag_succ, ih, Finset.sum_range_succ]

theorem triSum_diag_div (n : Nat) : triSum n n = n * (n - 1) / 2 := by
  rw [triSum_diag, Finset.sum_range_id]

theorem pairIdx_lt_next (n f t : Nat) (hft : f < t) (htn : t < n) :
    pairCombinationIndex n (f + 1) (t + 1) < triSum n (f + 2) := by
  rw [pairCombinationIndex_eq, triSum_succ_top n (f + 1) (Nat.succ_le_succ (Nat.zero_le f))]
  have h : t - f - 1 < n - (f + 1) := by omega
  exact Nat.add_lt_add_left h _

theorem pairIdx_lt_of_from_lt (n f1 t1 f2 t2 : Nat) (h1 : f1 < t1) (ht1 : t1 < n)
    (hf : f1 < f2) :
    pairCombinationIndex n (f1 + 1) (t1 + 1) < pairCombinationIndex n (f2 + 1) (t2 + 1) := by
  have hA := pairIdx_lt_next n f1 t1 h1 ht1
  have hmono : triSum n (f1 + 2) ≤ triSum n (f2 + 1) := triSum_mono n (by omega)
  have hle : triSum n (f2 + 1) ≤ pairCombinationIndex n (f2 + 1) (t2 + 1) := by
    rw [pairCombinationIndex_eq]
    exact Nat.le_add_right _ _
  omega

theorem pairIdx_bound (n f t : Nat) (hft : f < t) (htn : t < n) :
    pairCombinationIndex n (f + 1) (t + 1) < triSum n n :=
  (pairIdx_lt_next n f t hft htn).trans_le (triSum_mono n (by omega))

theorem pairIdx_surj_aux (n : Nat) :
    ∀ k, k ≤ n → ∀ m, m < triSum n k →
      ∃ f t, f < t ∧ t < n ∧ f + 1 < k ∧ pairCombinationIndex n (f + 1) (t + 1) = m := by
  intro k
  induction k with
  | zero =>
    intro _ m hm
    simp [triSum] at hm
  | succ k ih =>
    intro hk m hm
    rcases Nat.lt_or_ge k 1 with hk0 | hk1
    · have hk0 : k = 0 := by omega
      subst hk0
      simp [triSum] at hm
    · rw [triSum_succ_top n k hk1] at hm
      by_cases hmk : m < triSum n k
      · obtain ⟨f, t, hft, htn, hfk, hidx⟩ := ih (by omega) m hmk
        exact ⟨f, t, hft, htn, by omega, hidx⟩
      · push_neg at hmk
        refine ⟨k - 1, k - 1 + 1 + (m - triSum n k), by omega, by omega, by omega, ?_⟩
        rw [pairCombinationIndex_eq, show k - 1 + 1 = k from by omega]
        omega

/-- Claim C5: for every arity n at least 2, the triangular mapping used by
the pairwise builder, applied over all 0-based column pairs from < to < n
through the 1-based call sites, is injective, its image is exactly the
interval from 0 up to n(n-1)/2, and there are exactly n(n-1)/2 pairs, so
every pair owns its own PairStatistic slot. -/
theorem C5_triangular_bijection (n : Nat) (_hn : 2 ≤ n) :
    Set.InjOn (fun p : Nat × Nat => pairCombinationIndex n (p.1 + 1) (p.2 + 1))
      ↑(validPairs n) ∧
    Finset.image (fun p : Nat × Nat => pairCombinationIndex n (p.1 + 1) (p.2 + 1))
      (validPairs n) = Finset.range (n * (n - 1) / 2) ∧
    (validPairs n).card = n * (n - 1) / 2 := by
  have hmem : ∀ p : Nat × Nat, p ∈ validPairs n ↔ p.1 < p.2 ∧ p.2 < n := by
    intro p
    simp only [validPairs, Finset.mem_filter, Finset.mem_product, Finset.mem_range]
    constructor
    · rintro ⟨⟨_, h2⟩, h3⟩
      exact ⟨h3, h2⟩
    · rintro ⟨h1, h2⟩
      exact ⟨⟨by omega, h2⟩, h1⟩
  have hinj : Set.InjOn (fun p : Nat × Nat => pairCombinationIndex n (p.1 + 1) (p.2 + 1))
      ↑(validPairs n) := by
    intro p hp q hq heq
    obtain ⟨hp1, hp2⟩ := (hmem p).1 (Finset.mem_coe.mp hp)
    obtain ⟨hq1, hq2⟩ := (hmem q).1 (Finset.mem_coe.mp hq)
    simp only at heq
    rcases lt_trichotomy p.1 q.1 with h | h | h
    · exact absurd heq (Nat.ne_of_lt (pairIdx_lt_of_from_lt n p.1 p.2 q.1 q.2 hp1 hp2 h))
    · have h2 : p.2 = q.2 := by
        rw [pairCombinationIndex_eq, pairCombinationIndex_eq, h] at heq
        omega
      exact Prod.ext h h2
    · exact absurd heq.symm
        (Nat.ne_of_lt (pairIdx_lt_of_from_lt n q.1 q.2 p.1 p.2 hq1 hq2 h))
  have himg : Finset.image (fun p : Nat × Nat => pairCombinationIndex n (p.1 + 1) (p.2 + 1))
      (validPairs n) = Finset.range (n * (n - 1) / 2) := by
    ext m
    simp only [Finset.mem_image, Finset.mem_range]
    constructor
    · rintro ⟨p, hp, rfl⟩
      obtain ⟨h1, h2⟩ := (hmem p).1 hp
      have hb := pairIdx_bound n p.1 p.2 h1 h2
      rwa [triSum_diag_div] at hb
    · intro hm
      rw [← triSum_diag_div] at hm
      obtain ⟨f, t, hft, htn, _, hidx⟩ := pairIdx_surj_aux n n le_rfl m hm
      exact ⟨(f, t), (hmem (f, t)).2 ⟨hft, htn⟩, hidx⟩
  refine ⟨hinj, himg, ?_⟩
  rw [← Finset.card_range (n * (n - 1) / 2), ← himg]
  exact (Finset.card_image_of_injOn hinj).symm

theorem C5_triangular_bijection_witness :
    Set.InjOn (fun p : Nat × Nat => pairCombinationIndex 4 (p.1 + 1) (p.2 + 1))
      ↑(validPairs 4) ∧
    Finset.image (fun p : Nat × Nat => pairCombinationIndex 4 (p.1 + 1) (p.2 + 1))
      (validPairs 4) = Finset.range (4 * (4 - 1) / 2) ∧
    (validPairs 4).card = 4 * (4 - 1) / 2 :=
  C5_triangular_bijection 4 (by decide)

/-! ## Pairwise insertion in full generality (claim C4) -/

theorem pairCombinationIndex_def (n f t : Nat) :
    pairCombinationIndex n f t = triSum n f + (t - f - 1) := rfl

theorem pairIdx_lt_blockEnd (n f t : Nat) (h1 : 1 ≤ f) (hft : f < t) (htn : t ≤ n) :
    pairCombinationIndex n f t < triSum n (f + 1) := by
  rw [pairCombinationIndex_def, triSum_succ_top n f h1]
  exact Nat.add_lt_add_left (by omega) _

theorem range_drop (n f : Nat) : (List.range n).drop f = List.range' f (n - f) := by
  rcases le_or_lt f n with h | h
  · have h1 := List.range'_append 0 f (n - f) 1
    rw [show 0 + 1 * f = f from by omega, show n - f + f = n from by omega] at h1
    rw [List.range_eq_range', ← h1, List.drop_left' (by simp)]
  · rw [List.drop_eq_nil_of_le (by rw [List.length_range]; omega),
      show n - f = 0 from by omega]
    rfl

theorem addPair_length (n f : Nat) (v : String) (t : Nat) (w : String)
    (ps : List (Finset String)) :
    (addToTwoColumnCombinationHashSet n f v t w ps).length = ps.length := by
  simp [addToTwoColumnCombinationHashSet]

theorem addPair_getElem_ne (n f : Nat) (v : String) (t : Nat) (w : String)
    (ps : List (Finset String)) (j : Nat) (h : j ≠ pairCombinationIndex n f t) :
    (addToTwoColumnCombinationHashSet n f v t w ps)[j]? = ps[j]? := by
  simp only [addToTwoColumnCombinationHashSet]
  exact List.getElem?_set_ne (Ne.symm h)

theorem addPair_getElem_eq (n f : Nat) (v : String) (t : Nat) (w : String)
    (ps : List (Finset String)) (h : pairCombinationIndex n f t < ps.length) :
    (addToTwoColumnCombinationHashSet n f v t w ps)[pairCombinationIndex n f t]? =
      some (insert (v ++ w) (ps.getD (pairCombinationIndex n f t) ∅)) := by
  simp only [addToTwoColumnCombinationHashSet]
  exact List.getElem?_set_self h

theorem foldl_addPair_length (n f : Nat) (v : String) (slots : List String)
    (is : List Nat) (ps : List (Finset String)) :
    (is.foldl
      (fun ps i => addToTwoColumnCombinationHashSet n f v (i + 1) (slots.getD i "") ps)
      ps).length = ps.length := by
  induction is generalizing ps with
  | nil => rfl
  | cons i is ih => rw [List.foldl_cons, ih, addPair_length]

theorem foldl_addPair_untouched (n f : Nat) (v : String) (slots : List String)
    (is : List Nat) (ps : List (Finset String)) (j : Nat)
    (h : ∀ i ∈ is, j ≠ pairCombinationIndex n f (i + 1)) :
    (is.foldl
      (fun ps i => addToTwoColumnCombinationHashSet n f v (i + 1) (slots.getD i "") ps)
      ps)[j]? = ps[j]? := by
  induction is generalizing ps with
  | nil => rfl
  | cons i is ih =>
    rw [List.foldl_cons, ih _ (fun k hk => h k (List.mem_cons_of_mem i hk)),
      addPair_getElem_ne n f v (i + 1) (slots.getD i "") ps j (h i (List.mem_cons_self i is))]

theorem buildTwo_length (n : Nat) (v : String) (f : Nat) (slots : List String)
    (ps : List (Finset String)) :
    (buildTwoColumnCombinations n v f slots ps).length = ps.length := by
  unfold buildTwoColumnCombinations
  exact foldl_addPair_length n f v slots _ ps

theorem buildTwo_untouched (n : Nat) (v : String) (f : Nat) (slots : List String)
    (ps : List (Finset String)) (j : Nat)
    (h : ∀ i, f ≤ i → i < n → j ≠ pairCombinationIndex n f (i + 1)) :
    (buildTwoColumnCombinations n v f slots ps)[j]? = ps[j]? := by
  unfold buildTwoColumnCombinations
  rw [range_drop]
  refine foldl_addPair_untouched n f v slots _ ps j ?_
  intro i hi
  rw [List.mem_range'_1] at hi
  exact h i hi.1 (by omega)

theorem buildTwo_hit (n f t : Nat) (v : String) (slots : List String)
    (ps : List (Finset String)) (hft : f ≤ t) (htn : t < n)
    (hlen : pairCombinationIndex n f (t + 1) < ps.length) :
    (buildTwoColumnCombinations n v f slots ps)[pairCombinationIndex n f (t + 1)]? =
      some (insert (v ++ slots.getD t "")
        (ps.getD (pairCombinationIndex n f (t + 1)) ∅)) := by
  unfold buildTwoColumnCombinations
  rw [range_drop]
  have hsplit : List.range' f (n - f) =
      List.range' f (t - f) ++ t :: List.range' (t + 1) (n - t - 1) := by
    have h1 := List.range'_append f (t - f) (n - t) 1
    rw [show f + 1 * (t - f) = t from by omega,
      show n - t + (t - f) = n - f from by omega] at h1
    obtain ⟨m, hm⟩ : ∃ m, n - t = m + 1 := ⟨n - t - 1, by omega⟩
    rw [← h1, hm, List.range'_succ]
    simp
  rw [hsplit, List.foldl_append, List.foldl_cons]
  have hpre : ((List.range' f (t - f)).foldl
      (fun ps i => addToTwoColumnCombinationHashSet n f v (i + 1) (slots.getD i "") ps)
      ps)[pairCombinationIndex n f (t + 1)]? =
      ps[pairCombinationIndex n f (t + 1)]? := by
    refine foldl_addPair_untouched n f v slots _ ps _ ?_
    intro i hi
    rw [List.mem_range'_1] at hi
    rw [pairCombinationIndex_def, pairCombinationIndex_def]
    omega
  have hprelen := foldl_addPair_length n f v slots (List.range' f (t - f)) ps
  have htail : ∀ X : List (Finset String),
      ((List.range' (t + 1) (n - t - 1)).foldl
        (fun ps i => addToTwoColumnCombinationHashSet n f v (i + 1) (slots.getD i "") ps)
        X)[pairCombinationIndex n f (t + 1)]? =
      X[pairCombinationIndex n f (t + 1)]? := by
    intro X
    refine foldl_addPair_untouched n f v slots _ X _ ?_
    intro i hi
    rw [List.mem_range'_1] at hi
    rw [pairCombinationIndex_def, pairCombinationIndex_def]
    omega
  rw [htail, addPair_getElem_eq n f v (t + 1) (slots.getD t "") _ (by rw [hprelen]; exact hlen)]
  simp only [List.getD_eq_getElem?_getD] at hpre ⊢
  rw [hpre]

theorem foldl_buildTwo_length (n : Nat) (slots : List String) (is : List Nat)
    (ps : List (Finset String)) :
    (is.foldl
      (fun ps i => buildTwoColumnCombinations n (slots.getD i "") (i + 1) slots ps)
      ps).length = ps.length := by
  induction is generalizing ps with
  | nil => rfl
  | cons i is ih => rw [List.foldl_cons, ih, buildTwo_length]

theorem foldl_buildTwo_untouched (n : Nat) (slots : List String) (is : List Nat)
    (ps : List (Finset String)) (j : Nat)
    (h : ∀ i ∈ is, ∀ k, i + 1 ≤ k → k < n → j ≠ pairCombinationIndex n (i + 1) (k + 1)) :
    (is.foldl
      (fun ps i => buildTwoColumnCombinations n (slots.getD i "") (i + 1) slots ps)
      ps)[j]? = ps[j]? := by
  induction is generalizing ps with
  | nil => rfl
  | cons i is ih =>
    rw [List.foldl_cons, ih _ (fun a ha => h a (List.mem_cons_of_mem i ha)),
      buildTwo_untouched n (slots.getD i "") (i + 1) slots ps j (h i (List.mem_cons_self i is))]

theorem execProcNodePiggyback_slots (row : List AttrValue) (st : PiggybackState) :
    (execProcNodePiggyback row st).slotValues =
      (accumPhase row st.columnStatistics st.distinctValues).2.2 := rfl

theorem execProcNodePiggyback_pairs (row : List AttrValue) (st : PiggybackState) :
    (execProcNodePiggyback row st).twoColumnsCombinations =
      (List.range row.length).foldl
        (fun ps i => buildTwoColumnCombinations row.length
          ((accumPhase row st.columnStatistics st.distinctValues).2.2.getD i "") (i + 1)
          (accumPhase row st.columnStatistics st.distinctValues).2.2 ps)
        st.twoColumnsCombinations := rfl

/-- Claim C4: for every row and every 0-based column pair f < t within the
row arity, the key inserted into the pair slot at the triangular index is
the concatenation of the two slot values with no separator between them;
consequently, for arity 2, the rows with slot values ("a", "b") and
("ab", "") both insert the same key "ab" into the single pair set. -/
theorem C4_pairwise_key :
    (∀ (row : List AttrValue) (st : PiggybackState) (f t : Nat),
      f < t → t < row.length →
      st.twoColumnsCombinations.length = row.length * (row.length - 1) / 2 →
      (execProcNodePiggyback row st).twoColumnsCombinations[
          pairCombinationIndex row.length (f + 1) (t + 1)]? =
        some (insert
          ((execProcNodePiggyback row st).slotValues.getD f "" ++
            (execProcNodePiggyback row st).slotValues.getD t "")
          (st.twoColumnsCombinations.getD
            (pairCombinationIndex row.length (f + 1) (t + 1)) ∅))) ∧
    (∀ (nm sv : List String) (n : Nat) (c1 c2 : ColumnStatistic)
        (d1 d2 : Finset ScalarKey) (P : Finset String),
      (∀ x y : String,
        (execProcNodePiggyback [textAttr x, textAttr y]
          ⟨n, nm, [c1, c2], [d1, d2], [P], sv⟩).twoColumnsCombinations =
          [insert (x ++ y) P]) ∧
      (execProcNodePiggyback [textAttr "a", textAttr "b"]
          ⟨n, nm, [c1, c2], [d1, d2], [P], sv⟩).twoColumnsCombinations =
        (execProcNodePiggyback [textAttr "ab", textAttr ""]
          ⟨n, nm, [c1, c2], [d1, d2], [P], sv⟩).twoColumnsCombinations) := by
  constructor
  · intro row st f t hft htn hlen
    have hj : pairCombinationIndex row.length (f + 1) (t + 1) <
        st.twoColumnsCombinations.length := by
      rw [hlen, ← triSum_diag_div]
      exact pairIdx_bound row.length f t hft htn
    rw [execProcNodePiggyback_slots, execProcNodePiggyback_pairs]
    generalize (accumPhase row st.columnStatistics st.distinctValues).2.2 = slots
    rw [List.range_eq_range']
    have hsplit : List.range' 0 row.length =
        List.range' 0 f ++ f :: List.range' (f + 1) (row.length - f - 1) := by
      have h1 := List.range'_append 0 f (row.length - f) 1
      rw [show 0 + 1 * f = f from by omega,
        show row.length - f + f = row.length from by omega] at h1
      obtain ⟨m, hm⟩ : ∃ m, row.length - f = m + 1 := ⟨row.length - f - 1, by omega⟩
      rw [← h1, hm, List.range'_succ]
      simp
    rw [hsplit, List.foldl_append, List.foldl_cons]
    have hpre : ((List.range' 0 f).foldl
        (fun ps i =>
          buildTwoColumnCombinations row.length (slots.getD i "") (i + 1) slots ps)
        st.twoColumnsCombinations)[pairCombinationIndex row.length (f + 1) (t + 1)]? =
        st.twoColumnsCombinations[pairCombinationIndex row.length (f + 1) (t + 1)]? := by
      refine foldl_buildTwo_untouched row.length slots _ _ _ ?_
      intro i hi k hk1 hk2
      rw [List.mem_range'_1] at hi
      have hlt := pairIdx_lt_blockEnd row.length (i + 1) (k + 1)
        (by omega) (by omega) (by omega)
      have hmono : triSum row.length (i + 1 + 1) ≤ triSum row.length (f + 1) :=
        triSum_mono row.length (by omega)
      have hge : triSum row.length (f + 1) ≤
          pairCombinationIndex row.length (f + 1) (t + 1) := by
        rw [pairCombinationIndex_def]
        exact Nat.le_add_right _ _
      omega
    have hprelen := foldl_buildTwo_length row.length slots (List.range' 0 f)
      st.twoColumnsCombinations
    have htail : ∀ X : List (Finset String),
        ((List.range' (f + 1) (row.length - f - 1)).foldl
          (fun ps i =>
            buildTwoColumnCombinations row.length (slots.getD i "") (i + 1) slots ps)
          X)[pairCombinationIndex row.length (f + 1) (t + 1)]? =
        X[pairCombinationIndex row.length (f + 1) (t + 1)]? := by
      intro X
      refine foldl_buildTwo_untouched row.length slots _ X _ ?_
      intro i hi k hk1 hk2
      rw [List.mem_range'_1] at hi
      have hlt := pairIdx_lt_blockEnd row.length (f + 1) (t + 1)
        (by omega) (by omega) (by omega)
      have hmono : triSum row.length (f + 1 + 1) ≤ triSum row.length (i + 1) :=
        triSum_mono row.length (by omega)
      have hge : triSum row.length (i + 1) ≤
          pairCombinationIndex row.length (i + 1) (k + 1) := by
        rw [pairCombinationIndex_def]
        exact Nat.le_add_right _ _
      omega
    rw [htail, buildTwo_hit row.length (f + 1) t (slots.getD f "") slots _
      (by omega) htn (by rw [hprelen]; exact hj)]
    simp only [List.getD_eq_getElem?_getD] at hpre ⊢
    rw [hpre]
  · intro nm sv n c1 c2 d1 d2 P
    have key : ∀ x y : String,
        (execProcNodePiggyback [textAttr x, textAttr y]
          ⟨n, nm, [c1, c2], [d1, d2], [P], sv⟩).twoColumnsCombinations =
          [insert (x ++ y) P] := fun x y => rfl
    refine ⟨key, ?_⟩
    rw [key, key, show ("a" ++ "b" : String) = "ab" from by decide,
      show ("ab" ++ "" : String) = "ab" from by decide]

theorem C4_pairwise_key_witness :
    (execProcNodePiggyback row3 stThreeCols).twoColumnsCombinations[
        pairCombinationIndex row3.length (0 + 1) (2 + 1)]? =
      some (insert
        ((execProcNodePiggyback row3 stThreeCols).slotValues.getD 0 "" ++
          (execProcNodePiggyback row3 stThreeCols).slotValues.getD 2 "")
        (stThreeCols.twoColumnsCombinations.getD
          (pairCombinationIndex row3.length (0 + 1) (2 + 1)) ∅)) :=
  C4_pairwise_key.1 row3 stThreeCols 0 2 (by decide) (by decide) (by decide)

end Piggyback
